import Mathlib

set_option maxHeartbeats 1000000

/-!
Shallow embedding of the extraction pipeline of `web_scrapper.py`
(`InstagramInsightsScraper.extract_post_views` and
`InstagramInsightsScraper._extract_with_xpath`).

Modelling conventions:
* Pixel coordinates and sizes are `Int` (document pixels); Python's floor
  division `//` on them is `Int.fdiv`.
* The Python string keys `f"{gx}_{gy}_{text}"` / `f"{gx}_{gy}"` are modelled
  as tuples: `str(int)` never contains an underscore, so the first two
  underscore-separated components parse uniquely and the f-string key is
  injective in the tuple.
* The render surface is a function from scroll offset to the snapshot the
  in-page script would return there; a raised WebDriver exception is an
  `Except.error`.  The wall clock (`datetime.now().isoformat()`) is an
  explicit `String` input.
* The `while` loop of the sampler is run on explicit fuel
  (`total_height.toNat + 1`); exhausting the fuel (which in Python would be a
  non-terminating loop, possible only when `viewport_height - 100 ≤ 0`) is
  modelled as an error outcome.
-/

namespace InstaScrape

/-- One rendered text node as the in-page script sees it: the node's own text
(before trimming) and its viewport-relative bounding rect. -/
structure RawNode where
  text : String
  top : Int
  left : Int
  width : Int
  height : Int
deriving DecidableEq, Repr

/-- One collected number: entry of the JS `results` array / Python `all_numbers`
list: trimmed text, absolute `top` (`rect.top + window.scrollY`), `left`,
`width`, `height`. -/
structure Obs where
  text : String
  top : Int
  left : Int
  width : Int
  height : Int
deriving DecidableEq, Repr

/-- Leading and trailing whitespace removal on character lists. -/
def trimL (cs : List Char) : List Char :=
  ((cs.dropWhile Char.isWhitespace).reverse.dropWhile Char.isWhitespace).reverse

/-- JS `String.prototype.trim` / Python `str.strip`. -/
def trimS (s : String) : String := ⟨trimL s.data⟩

/-- The optional magnitude suffix `[KMBkmb]` of the numeric grammar. -/
def isSuffixChar (c : Char) : Bool :=
  c = 'K' || c = 'M' || c = 'B' || c = 'k' || c = 'm' || c = 'b'

/-- Consume the `\d+\.?\d*` part of the numeric grammar; `none` when there is
no leading digit, otherwise the remaining characters. -/
def numRest (cs : List Char) : Option (List Char) :=
  if (cs.takeWhile Char.isDigit).isEmpty then none
  else
    match cs.dropWhile Char.isDigit with
    | '.' :: r2 => some (r2.dropWhile Char.isDigit)
    | r1 => some r1

/-- Tail pattern `([KMBkmb])?$`: the remaining characters are empty or one suffix letter. -/
def suffixEnd : List Char → Bool
  | [] => true
  | [c] => isSuffixChar c
  | _ :: _ :: _ => false

/-- The primary scanner's grammar `/^(\d+\.?\d*)\s*([KMBkmb])?$/`
(line 192 of `web_scrapper.py`). -/
def primaryMatchL (cs : List Char) : Bool :=
  match numRest cs with
  | none => false
  | some r => suffixEnd (r.dropWhile Char.isWhitespace)

/-- The fallback extractor's grammar `^\d+\.?\d*[KMBkmb]?$`
(line 336 of `web_scrapper.py`): no whitespace before the suffix. -/
def fallbackMatchL (cs : List Char) : Bool :=
  match numRest cs with
  | none => false
  | some r => suffixEnd r

/-- The in-page scanner's treatment of one node (lines 171-211): trim the
text, match the grammar, apply the visibility window, and record the
absolute position. -/
def scanNode (scrollY : Int) (n : RawNode) : Option Obs :=
  let t := trimS n.text
  if t.data.isEmpty then none
  else if primaryMatchL t.data = true ∧ 0 < n.width ∧ 0 < n.height ∧
      50 < n.top ∧ n.top < 10000 ∧ 0 < n.left ∧ n.left < 2000 then
    some { text := t, top := n.top + scrollY, left := n.left,
           width := n.width, height := n.height }
  else none

/-- One sampling pass: the JS script applied to every rendered node at the
current scroll offset. -/
def scanSnapshot (scrollY : Int) (nodes : List RawNode) : List Obs :=
  nodes.filterMap (scanNode scrollY)

/-- Dedup key of lines 249-251: `(left // 150, top // 150, text)`. -/
def dedupKey (o : Obs) : Int × Int × String :=
  (o.left.fdiv 150, o.top.fdiv 150, o.text)

/-- The loop of lines 247-255: keep the first observation with each key. -/
def dedupAux : List Obs → List (Int × Int × String) → List Obs
  | [], _ => []
  | o :: rest, seen =>
    if dedupKey o ∈ seen then dedupAux rest seen
    else o :: dedupAux rest (dedupKey o :: seen)

/-- The spatial deduplicator (lines 244-255). -/
def dedup (l : List Obs) : List Obs := dedupAux l []

/-- Sort key of lines 261 and 292: `(top // 200, left)`. -/
def sortKey (o : Obs) : Int × Int := (o.top.fdiv 200, o.left)

/-- Lexicographic comparison of sort keys, as Python compares the key
tuples. -/
def keyLe (a b : Int × Int) : Bool :=
  decide (a.1 < b.1) || (decide (a.1 = b.1) && decide (a.2 ≤ b.2))

/-- The comparison `view_counts.sort(key=lambda x: (int(x["top"] // 200), x["left"]))`
performs: Python compares the key tuples lexicographically. -/
def obsLe (a b : Obs) : Bool := keyLe (sortKey a) (sortKey b)

/-- Stable insertion of one element: `a` goes in front of the first element it
compares `≤` to, so an element never jumps ahead of an equal-keyed element
that preceded it. -/
def sinsert (a : Obs) : List Obs → List Obs
  | [] => [a]
  | b :: bs => if obsLe a b then a :: b :: bs else b :: sinsert a bs

/-- One application of the sort of lines 261 / 292.  Python `list.sort` is a
stable ascending sort by the key; it is modelled by stable insertion sort
(sortedness, stability and permutation are proved below, and any two stable
ascending sorts of the same list coincide). -/
def sortStage : List Obs → List Obs
  | [] => []
  | a :: l => sinsert a (sortStage l)

/-- Geometric filter of lines 270-273: neither width outside `[10,100]` nor
height outside `[10,50]`. -/
def sizeOk (o : Obs) : Bool :=
  !(decide (o.width < 10) || decide (100 < o.width)) &&
  !(decide (o.height < 10) || decide (50 < o.height))

/-- Classifier position key of line 276: `(left // 250, top // 250)`. -/
def classifyKey (o : Obs) : Int × Int := (o.left.fdiv 250, o.top.fdiv 250)

/-- The loop of lines 268-280: skip tokens failing the geometric filter, then
keep the first token claiming each coarse 250px cell. -/
def classifyAux : List Obs → List (Int × Int) → List Obs
  | [], _ => []
  | o :: rest, seen =>
    if sizeOk o then
      if classifyKey o ∈ seen then classifyAux rest seen
      else o :: classifyAux rest (classifyKey o :: seen)
    else classifyAux rest seen

/-- The classifier stage (lines 259-280): the deduplicated list is sorted in
place first (line 261), then filtered. -/
def classifyStage (unique_numbers : List Obs) : List Obs :=
  classifyAux (sortStage unique_numbers) []

/-- One `span` element as `_extract_with_xpath` sees it: its text with its
Selenium `location` and `size`. -/
structure Span where
  text : String
  x : Int
  y : Int
  width : Int
  height : Int
deriving DecidableEq, Repr

/-- Fallback dedup key of line 349: `(x // 200, y // 200)`. -/
def fallbackKey (s : Span) : Int × Int := (s.x.fdiv 200, s.y.fdiv 200)

/-- The method `_extract_with_xpath` (lines 315-372): trim, match the fallback grammar,
drop invisible and out-of-range widths, keep the first span per 200px cell. -/
def extract_with_xpath : List Span → List (Int × Int) → List Obs
  | [], _ => []
  | s :: rest, seen =>
    if (trimS s.text).data.isEmpty then extract_with_xpath rest seen
    else if fallbackMatchL (trimS s.text).data = false then extract_with_xpath rest seen
    else if s.width ≤ 0 ∨ s.height ≤ 0 then extract_with_xpath rest seen
    else if s.width < 15 ∨ 80 < s.width then extract_with_xpath rest seen
    else if fallbackKey s ∈ seen then extract_with_xpath rest seen
    else { text := trimS s.text, top := s.y, left := s.x, width := s.width,
           height := s.height } :: extract_with_xpath rest (fallbackKey s :: seen)

/-- One output row, fields in the declaration order of the dict literal of
lines 298-307. -/
structure PostRecord where
  label : String
  views : Option String
  likes : Option String
  comments : Option String
  shares : Option String
  saves : Option String
  image_src : Option String
  alt_text : Option String
  scraped_at : String
deriving DecidableEq, Repr

/-- The record built for the `i`-th (0-based) surviving candidate
(lines 297-308); `ts` is the wall-clock reading `datetime.now().isoformat()`. -/
def mkRecord (ts : String) (i : Nat) (o : Obs) : PostRecord :=
  { label := "image" ++ toString (i + 1), views := some o.text,
    likes := none, comments := none, shares := none, saves := none,
    image_src := none, alt_text := none, scraped_at := ts }

/-- The enumeration loop of lines 297-309. -/
def mkRecords (ts : String) (l : List Obs) : List PostRecord :=
  l.enum.map fun p => mkRecord ts p.1 p.2

/-- The candidate list the sequencer numbers: dedup, sort, classify, switch to
the fallback when fewer than 10 survive (lines 285-287), final sort
(line 292). -/
def finalCandidates (all_numbers : List Obs) (spans : List Span) : List Obs :=
  sortStage
    (if (classifyStage (dedup all_numbers)).length < 10
     then extract_with_xpath spans []
     else classifyStage (dedup all_numbers))

/-- The pure tail of `extract_post_views` (lines 243-313), from the collected
`all_numbers` to the returned `posts_data`. -/
def extractRecords (all_numbers : List Obs) (spans : List Span) (ts : String) :
    List PostRecord :=
  mkRecords ts (finalCandidates all_numbers spans)

/-- The sampling loop of lines 227-236 with the restore of line 239: scroll to
`pos`, run the scan there, advance by `step`; a raised exception propagates at
once, leaving the scroll offset where the loop put it; only after a normal
exit is the scroll offset set back to 0.  Returns the result together with
the final scroll offset. -/
def runPasses (snap : Int → Except Unit (List RawNode)) (step total_height : Int) :
    Nat → Int → List Obs → Except Unit (List Obs) × Int
  | 0, pos, acc =>
    if pos < total_height then (.error (), pos) else (.ok acc, 0)
  | fuel + 1, pos, acc =>
    if pos < total_height then
      match snap pos with
      | .error e => (.error e, pos)
      | .ok nodes =>
        runPasses snap step total_height fuel (pos + step)
          (acc ++ scanSnapshot pos nodes)
    else (.ok acc, 0)

/-- The method `extract_post_views` (lines 149-313): sample every scroll offset
`0, vh-100, 2(vh-100), …` below `total_height`, then run the pure pipeline.
`spans` is the span population `_extract_with_xpath` would scan.  Result
paired with the final scroll offset of the render surface. -/
def extract_post_views (snap : Int → Except Unit (List RawNode))
    (total_height viewport_height : Int) (spans : List Span) (ts : String) :
    Except Unit (List PostRecord) × Int :=
  match runPasses snap (viewport_height - 100) total_height
      (total_height.toNat + 1) 0 [] with
  | (.error e, pos) => (.error e, pos)
  | (.ok all_numbers, _) => (.ok (extractRecords all_numbers spans ts), 0)

/-- The dict of lines 298-307 viewed as the ordered association list Python's
`csv.DictWriter` serializes; order is the dict-literal key order. -/
def recordFields (r : PostRecord) : List (String × Option String) :=
  [("label", some r.label), ("views", r.views), ("likes", r.likes),
   ("comments", r.comments), ("shares", r.shares), ("saves", r.saves),
   ("image_src", r.image_src), ("alt_text", r.alt_text),
   ("scraped_at", some r.scraped_at)]

/-- The `save_to_csv` header (line 381): the keys of the first row's dict. -/
def csvHeader (rows : List PostRecord) : Option (List String) :=
  match rows with
  | [] => none
  | r :: _ => some ((recordFields r).map Prod.fst)

/-- A record with the wall-clock field blanked, for comparing runs made at
different times. -/
def stripTime (r : PostRecord) : PostRecord := { r with scraped_at := "" }

/-! ### Grammar lemmas -/

lemma isSuffixChar_not_ws {c : Char} (h : isSuffixChar c = true) :
    c.isWhitespace = false := by
  simp only [isSuffixChar, Bool.or_eq_true, decide_eq_true_eq] at h
  rcases h with ((((h | h) | h) | h) | h) | h <;> subst h <;> decide

/-- The part of the input consumed by `\d+\.?\d*` holds only digits and a
dot, and is nonempty. -/
lemma numRest_decomp {cs r : List Char} (h : numRest cs = some r) :
    ∃ pre, cs = pre ++ r ∧ pre ≠ [] ∧
      ∀ c ∈ pre, c.isDigit = true ∨ c = '.' := by
  have hsplit : cs.takeWhile Char.isDigit ++ cs.dropWhile Char.isDigit = cs :=
    List.takeWhile_append_dropWhile Char.isDigit cs
  have hne : cs.takeWhile Char.isDigit ≠ [] := by
    intro hnil
    unfold numRest at h
    rw [hnil] at h
    simp at h
  unfold numRest at h
  rw [if_neg (by simpa [List.isEmpty_iff] using hne)] at h
  split at h
  · rename_i r2 heq
    simp only [Option.some.injEq] at h
    refine ⟨cs.takeWhile Char.isDigit ++ '.' :: r2.takeWhile Char.isDigit, ?_, ?_, ?_⟩
    · calc cs = cs.takeWhile Char.isDigit ++ cs.dropWhile Char.isDigit := hsplit.symm
        _ = cs.takeWhile Char.isDigit ++ '.' :: r2 := by rw [heq]
        _ = cs.takeWhile Char.isDigit ++
            '.' :: (r2.takeWhile Char.isDigit ++ r2.dropWhile Char.isDigit) := by
            rw [List.takeWhile_append_dropWhile]
        _ = (cs.takeWhile Char.isDigit ++ '.' :: r2.takeWhile Char.isDigit) ++ r := by
            rw [h]
            simp
    · simp
    · intro d hdm
      rcases List.mem_append.mp hdm with hm | hm
      · exact Or.inl (List.mem_takeWhile_imp hm)
      · rcases List.mem_cons.mp hm with hm | hm
        · exact Or.inr hm
        · exact Or.inl (List.mem_takeWhile_imp hm)
  · simp only [Option.some.injEq] at h
    refine ⟨cs.takeWhile Char.isDigit, ?_, hne, ?_⟩
    · rw [← h]
      exact hsplit.symm
    · intro c hc
      exact Or.inl (List.mem_takeWhile_imp hc)

lemma isDigit_not_ws {c : Char} (h : c.isDigit = true) : c.isWhitespace = false := by
  cases hw : c.isWhitespace with
  | false => rfl
  | true =>
    exfalso
    simp only [Char.isWhitespace, Bool.or_eq_true, decide_eq_true_eq] at hw
    simp only [Char.isDigit, Bool.and_eq_true, decide_eq_true_eq] at h
    rcases h with ⟨h1, h2⟩
    rcases hw with ((h' | h') | h') | h' <;> subst h' <;> revert h1 h2 <;> decide

lemma suffixEnd_not_ws {r : List Char} (h : suffixEnd r = true) :
    ∀ c ∈ r, c.isWhitespace = false := by
  match r with
  | [] => intro c hc; cases hc
  | [c] =>
    intro d hd
    rcases List.mem_singleton.mp hd with rfl
    exact isSuffixChar_not_ws h
  | c :: d :: r => cases h

lemma dropWhile_eq_self_of_not_ws {r : List Char}
    (h : ∀ c ∈ r, c.isWhitespace = false) :
    r.dropWhile Char.isWhitespace = r := by
  cases r with
  | nil => rfl
  | cons c cs =>
    rw [List.dropWhile_cons, h c (List.mem_cons_self c cs)]
    simp

/-- Every character of an input accepted by the fallback grammar is a digit,
a dot, or a magnitude suffix; in particular none is whitespace. -/
lemma fallbackMatchL_no_ws {cs : List Char} (h : fallbackMatchL cs = true) :
    ∀ c ∈ cs, c.isWhitespace = false := by
  rcases hn : numRest cs with _ | r
  · simp [fallbackMatchL, hn] at h
  · simp only [fallbackMatchL, hn] at h
    rcases numRest_decomp hn with ⟨pre, rfl, -, hpre⟩
    intro c hc
    rcases List.mem_append.mp hc with hm | hm
    · rcases hpre c hm with hd | hd
      · exact isDigit_not_ws hd
      · subst hd; decide
    · exact suffixEnd_not_ws h c hm

/-- Everything the fallback grammar accepts, the primary grammar accepts. -/
lemma fallback_imp_primary {cs : List Char} (h : fallbackMatchL cs = true) :
    primaryMatchL cs = true := by
  rcases hn : numRest cs with _ | r
  · simp [fallbackMatchL, hn] at h
  · simp only [fallbackMatchL, hn] at h
    simp only [primaryMatchL, hn]
    rw [dropWhile_eq_self_of_not_ws (suffixEnd_not_ws h)]
    exact h

/-- On whitespace-free input, the primary grammar implies the fallback
grammar (the `\s*` group is forced empty). -/
lemma primary_imp_fallback_of_no_ws {cs : List Char}
    (hp : primaryMatchL cs = true) (hw : ∀ c ∈ cs, c.isWhitespace = false) :
    fallbackMatchL cs = true := by
  rcases hn : numRest cs with _ | r
  · simp [primaryMatchL, hn] at hp
  · simp only [primaryMatchL, hn] at hp
    simp only [fallbackMatchL, hn]
    rcases numRest_decomp hn with ⟨pre, hcs, -, -⟩
    rw [dropWhile_eq_self_of_not_ws
      (fun c hc => hw c (hcs ▸ List.mem_append.mpr (Or.inr hc)))] at hp
    exact hp

/-! ### Grid-cell arithmetic -/

lemma fdiv150 (a : Int) : a.fdiv 150 = a / 150 := Int.fdiv_eq_ediv a (by norm_num)

lemma fdiv200 (a : Int) : a.fdiv 200 = a / 200 := Int.fdiv_eq_ediv a (by norm_num)

lemma fdiv250 (a : Int) : a.fdiv 250 = a / 250 := Int.fdiv_eq_ediv a (by norm_num)

/-- Two coordinates in the same 250px cell are less than 250 apart, so
coordinates more than 250 apart land in different classifier cells. -/
lemma classifyKey_ne_of_far {x y : Obs}
    (h : 250 < |x.top - y.top| ∨ 250 < |x.left - y.left|) :
    classifyKey x ≠ classifyKey y := by
  intro he
  have h1 : x.left.fdiv 250 = y.left.fdiv 250 := congrArg Prod.fst he
  have h2 : x.top.fdiv 250 = y.top.fdiv 250 := congrArg Prod.snd he
  simp only [fdiv250] at h1 h2
  rcases h with h | h <;> rcases lt_abs.mp h with h' | h' <;> omega

/-- Two observations with the same dedup key sit less than 150 apart in both
axes and carry the same text. -/
lemma dedupKey_eq_imp_close {x y : Obs} (h : dedupKey x = dedupKey y) :
    |x.left - y.left| < 150 ∧ |x.top - y.top| < 150 ∧ x.text = y.text := by
  have h1 : x.left.fdiv 150 = y.left.fdiv 150 := congrArg (fun p => p.1) h
  have h2 : x.top.fdiv 150 = y.top.fdiv 150 := congrArg (fun p => p.2.1) h
  have h3 : x.text = y.text := congrArg (fun p => p.2.2) h
  simp only [fdiv150] at h1 h2
  refine ⟨?_, ?_, h3⟩ <;> rw [abs_lt] <;> omega

/-! ### Spatial deduplicator lemmas -/

lemma mem_of_mem_dedupAux : ∀ {l : List Obs} {seen} {x : Obs},
    x ∈ dedupAux l seen → x ∈ l := by
  intro l
  induction l with
  | nil => intro seen x h; cases h
  | cons o rest ih =>
    intro seen x h
    unfold dedupAux at h
    by_cases hk : dedupKey o ∈ seen
    · rw [if_pos hk] at h
      exact List.mem_cons_of_mem _ (ih h)
    · rw [if_neg hk] at h
      rcases List.mem_cons.mp h with rfl | hm
      · exact List.mem_cons_self _ _
      · exact List.mem_cons_of_mem _ (ih hm)

lemma dedupAux_key_not_mem : ∀ {l : List Obs} {seen} {x : Obs},
    x ∈ dedupAux l seen → dedupKey x ∉ seen := by
  intro l
  induction l with
  | nil => intro seen x h; cases h
  | cons o rest ih =>
    intro seen x h
    unfold dedupAux at h
    by_cases hk : dedupKey o ∈ seen
    · rw [if_pos hk] at h
      exact ih h
    · rw [if_neg hk] at h
      rcases List.mem_cons.mp h with rfl | hm
      · exact hk
      · intro hs
        exact ih hm (List.mem_cons_of_mem _ hs)

/-- The deduplicated list holds at most one observation per dedup key. -/
lemma dedupAux_pairwise : ∀ (l : List Obs) (seen),
    (dedupAux l seen).Pairwise (fun a b => dedupKey a ≠ dedupKey b) := by
  intro l
  induction l with
  | nil => intro seen; exact List.Pairwise.nil
  | cons o rest ih =>
    intro seen
    unfold dedupAux
    by_cases hk : dedupKey o ∈ seen
    · rw [if_pos hk]
      exact ih seen
    · rw [if_neg hk]
      refine List.Pairwise.cons ?_ (ih _)
      intro y hy he
      exact dedupAux_key_not_mem hy (he ▸ List.mem_cons_self _ _)

/-- Every input observation has a surviving representative with its key
(unless its key was already claimed before this call). -/
lemma dedupAux_covers : ∀ {l : List Obs} (seen) {o : Obs}, o ∈ l →
    dedupKey o ∈ seen ∨ ∃ x ∈ dedupAux l seen, dedupKey x = dedupKey o := by
  intro l
  induction l with
  | nil => intro seen o h; cases h
  | cons a rest ih =>
    intro seen o h
    unfold dedupAux
    by_cases hk : dedupKey a ∈ seen
    · rw [if_pos hk]
      rcases List.mem_cons.mp h with rfl | hm
      · exact Or.inl hk
      · exact ih seen hm
    · rw [if_neg hk]
      rcases List.mem_cons.mp h with he | hm
      · exact Or.inr ⟨a, List.mem_cons_self _ _, by rw [he]⟩
      · rcases ih (dedupKey a :: seen) hm with hs | ⟨x, hx, hxe⟩
        · rcases List.mem_cons.mp hs with he | hs
          · exact Or.inr ⟨a, List.mem_cons_self _ _, he.symm⟩
          · exact Or.inl hs
        · exact Or.inr ⟨x, List.mem_cons_of_mem _ hx, hxe⟩

/-- On a list whose keys are pairwise distinct and unclaimed, the
deduplicator is the identity. -/
lemma dedupAux_of_distinct : ∀ {l : List Obs} {seen},
    l.Pairwise (fun a b => dedupKey a ≠ dedupKey b) →
    (∀ x ∈ l, dedupKey x ∉ seen) → dedupAux l seen = l := by
  intro l
  induction l with
  | nil => intro seen _ _; rfl
  | cons o rest ih =>
    intro seen hp hs
    unfold dedupAux
    rw [if_neg (hs o (List.mem_cons_self _ _))]
    congr 1
    refine ih (List.Pairwise.sublist (List.sublist_cons_self o rest) hp) ?_
    intro x hx hmem
    rcases List.mem_cons.mp hmem with he | hmem
    · exact (List.rel_of_pairwise_cons hp hx) he.symm
    · exact hs x (List.mem_cons_of_mem _ hx) hmem

/-! ### Classifier lemmas -/

/-- The predicate "claims the same 250px cell as `x` and passes the size
filter". -/
def classifyClaim (x : Obs) (o : Obs) : Bool :=
  sizeOk o && decide (classifyKey o = classifyKey x)

lemma classifyAux_key_not_mem : ∀ {s : List Obs} {seen} {x : Obs},
    x ∈ classifyAux s seen → classifyKey x ∉ seen := by
  intro s
  induction s with
  | nil => intro seen x h; cases h
  | cons o rest ih =>
    intro seen x h
    unfold classifyAux at h
    by_cases hg : sizeOk o
    · rw [if_pos hg] at h
      by_cases hk : classifyKey o ∈ seen
      · rw [if_pos hk] at h
        exact ih h
      · rw [if_neg hk] at h
        rcases List.mem_cons.mp h with rfl | hm
        · exact hk
        · intro hs
          exact ih hm (List.mem_cons_of_mem _ hs)
    · rw [if_neg hg] at h
      exact ih h

/-- A token survives the classifier loop iff its cell was unclaimed on entry
and it is the first size-passing token of its cell in processing order. -/
lemma classifyAux_mem_iff : ∀ (s : List Obs) (seen) (x : Obs),
    x ∈ classifyAux s seen ↔
      classifyKey x ∉ seen ∧ s.find? (classifyClaim x) = some x := by
  intro s
  induction s with
  | nil =>
    intro seen x
    simp [classifyAux]
  | cons o rest ih =>
    intro seen x
    unfold classifyAux
    by_cases hg : sizeOk o
    · rw [if_pos hg]
      by_cases hk : classifyKey o ∈ seen
      · rw [if_pos hk]
        by_cases he : classifyKey o = classifyKey x
        · rw [List.find?_cons_of_pos _ (by simp [classifyClaim, hg, he])]
          constructor
          · intro hm
            exact absurd (he ▸ hk) (classifyAux_key_not_mem hm)
          · rintro ⟨hxs, hox⟩
            cases hox
            exact absurd (he ▸ hk) hxs
        · rw [List.find?_cons_of_neg _ (by simp [classifyClaim, hg, he])]
          exact ih seen x
      · rw [if_neg hk]
        by_cases he : classifyKey o = classifyKey x
        · rw [List.find?_cons_of_pos _ (by simp [classifyClaim, hg, he])]
          constructor
          · intro hm
            rcases List.mem_cons.mp hm with rfl | hm
            · exact ⟨he ▸ hk, rfl⟩
            · have := classifyAux_key_not_mem hm
              exact absurd (he ▸ List.mem_cons_self _ _) this
          · rintro ⟨hxs, hox⟩
            cases hox
            exact List.mem_cons_self _ _
        · rw [List.find?_cons_of_neg _ (by simp [classifyClaim, hg, he])]
          constructor
          · intro hm
            rcases List.mem_cons.mp hm with rfl | hm
            · exact absurd rfl he
            · rcases (ih _ x).mp hm with ⟨hxs, hf⟩
              exact ⟨fun hs => hxs (List.mem_cons_of_mem _ hs), hf⟩
          · rintro ⟨hxs, hf⟩
            refine List.mem_cons_of_mem _ ((ih _ x).mpr ⟨?_, hf⟩)
            intro hs
            rcases List.mem_cons.mp hs with he' | hs
            · exact he he'.symm
            · exact hxs hs
    · rw [if_neg hg]
      rw [List.find?_cons_of_neg _ (by simp [classifyClaim, hg])]
      exact ih seen x

lemma mem_of_mem_classifyAux {s : List Obs} {seen} {x : Obs}
    (h : x ∈ classifyAux s seen) : x ∈ s ∧ sizeOk x = true := by
  rcases (classifyAux_mem_iff s seen x).mp h with ⟨-, hf⟩
  have hmem := List.mem_of_find?_eq_some hf
  have hp := List.find?_some hf
  simp only [classifyClaim, Bool.and_eq_true] at hp
  exact ⟨hmem, hp.1⟩

/-! ### Stable sort lemmas -/

lemma keyLe_iff (a b : Int × Int) :
    keyLe a b = true ↔ a.1 < b.1 ∨ (a.1 = b.1 ∧ a.2 ≤ b.2) := by
  simp [keyLe]

lemma obsLe_of_sortKey_eq {a b : Obs} (h : sortKey a = sortKey b) :
    obsLe a b = true := by
  unfold obsLe
  rw [keyLe_iff, h]
  exact Or.inr ⟨rfl, le_refl _⟩

lemma obsLe_total (a b : Obs) : obsLe a b = true ∨ obsLe b a = true := by
  unfold obsLe
  rw [keyLe_iff, keyLe_iff]
  omega

lemma obsLe_of_not {a b : Obs} (h : ¬ obsLe a b = true) : obsLe b a = true := by
  rcases obsLe_total a b with h' | h'
  · exact absurd h' h
  · exact h'

lemma obsLe_trans {a b c : Obs} (h1 : obsLe a b = true) (h2 : obsLe b c = true) :
    obsLe a c = true := by
  unfold obsLe at h1 h2 ⊢
  rw [keyLe_iff] at h1 h2 ⊢
  omega

lemma mem_sinsert {x a : Obs} : ∀ {l : List Obs},
    x ∈ sinsert a l ↔ x = a ∨ x ∈ l := by
  intro l
  induction l with
  | nil => simp [sinsert]
  | cons b bs ih =>
    unfold sinsert
    by_cases h : obsLe a b = true
    · rw [if_pos h]
      simp [List.mem_cons]
    · rw [if_neg h]
      simp only [List.mem_cons, ih]
      tauto

lemma sinsert_perm (a : Obs) : ∀ (l : List Obs), List.Perm (sinsert a l) (a :: l) := by
  intro l
  induction l with
  | nil => exact List.Perm.refl _
  | cons b bs ih =>
    unfold sinsert
    by_cases h : obsLe a b = true
    · rw [if_pos h]
    · rw [if_neg h]
      exact (List.Perm.cons b ih).trans (List.Perm.swap a b bs)

lemma sortStage_perm : ∀ (l : List Obs), List.Perm (sortStage l) l := by
  intro l
  induction l with
  | nil => exact List.Perm.refl _
  | cons a l ih =>
    unfold sortStage
    exact (sinsert_perm a (sortStage l)).trans (List.Perm.cons a ih)

lemma mem_sortStage {x : Obs} {l : List Obs} : x ∈ sortStage l ↔ x ∈ l :=
  (sortStage_perm l).mem_iff

lemma pairwise_sinsert {a : Obs} : ∀ {l : List Obs},
    l.Pairwise (fun x y => obsLe x y = true) →
    (sinsert a l).Pairwise (fun x y => obsLe x y = true) := by
  intro l
  induction l with
  | nil => intro _; simp [sinsert]
  | cons b bs ih =>
    intro h
    unfold sinsert
    by_cases hle : obsLe a b = true
    · rw [if_pos hle]
      refine List.Pairwise.cons ?_ h
      intro y hy
      rcases List.mem_cons.mp hy with rfl | hy
      · exact hle
      · exact obsLe_trans hle (List.rel_of_pairwise_cons h hy)
    · rw [if_neg hle]
      refine List.Pairwise.cons ?_ (ih (List.Pairwise.sublist (List.sublist_cons_self b bs) h))
      intro y hy
      rcases mem_sinsert.mp hy with rfl | hy
      · exact obsLe_of_not hle
      · exact List.rel_of_pairwise_cons h hy

/-- The sorted stage is ascending in the code's sort key. -/
lemma sortStage_sorted : ∀ (l : List Obs),
    (sortStage l).Pairwise (fun x y => obsLe x y = true) := by
  intro l
  induction l with
  | nil => exact List.Pairwise.nil
  | cons a l ih => exact pairwise_sinsert ih

lemma filter_sinsert (a : Obs) (k : Int × Int) : ∀ (s : List Obs),
    (sinsert a s).filter (fun o => decide (sortKey o = k)) =
      if sortKey a = k then a :: s.filter (fun o => decide (sortKey o = k))
      else s.filter (fun o => decide (sortKey o = k)) := by
  intro s
  induction s with
  | nil =>
    by_cases h : sortKey a = k <;> simp [sinsert, h]
  | cons b bs ih =>
    unfold sinsert
    by_cases hle : obsLe a b = true
    · rw [if_pos hle]
      by_cases h : sortKey a = k <;> simp [List.filter_cons, h]
    · rw [if_neg hle]
      by_cases hb : sortKey b = k
      · have ha : sortKey a ≠ k := by
          intro ha
          exact hle (obsLe_of_sortKey_eq (by rw [ha, hb]))
        simp [List.filter_cons, hb, ha, ih]
      · by_cases ha : sortKey a = k <;> simp [List.filter_cons, hb, ha, ih]

/-- Stability: the sort never reorders observations sharing a sort key. -/
lemma sortStage_stable (k : Int × Int) : ∀ (l : List Obs),
    (sortStage l).filter (fun o => decide (sortKey o = k)) =
      l.filter (fun o => decide (sortKey o = k)) := by
  intro l
  induction l with
  | nil => rfl
  | cons a l ih =>
    unfold sortStage
    rw [filter_sinsert]
    by_cases h : sortKey a = k <;> simp [List.filter_cons, h, ih]

lemma keyLe_antisymm {p q : Int × Int} (h1 : keyLe p q = true)
    (h2 : keyLe q p = true) : p = q := by
  rcases p with ⟨p1, p2⟩
  rcases q with ⟨q1, q2⟩
  rw [keyLe_iff] at h1 h2
  simp only at h1 h2
  have hc : p1 = q1 ∧ p2 = q2 := by omega
  rw [hc.1, hc.2]

/-- A list ascending in the sort key is determined by its per-key
sublists: sorted order plus stability pin the result down uniquely, so any
implementation of Python's stable `list.sort` yields the same output. -/
lemma sorted_key_filter_unique : ∀ (l1 l2 : List Obs),
    l1.Pairwise (fun a b => obsLe a b = true) →
    l2.Pairwise (fun a b => obsLe a b = true) →
    (∀ k, l1.filter (fun o => decide (sortKey o = k)) =
      l2.filter (fun o => decide (sortKey o = k))) → l1 = l2 := by
  intro l1
  induction l1 with
  | nil =>
    intro l2 _ _ hf
    cases l2 with
    | nil => rfl
    | cons b t2 =>
      exfalso
      have hb := hf (sortKey b)
      rw [List.filter_nil, List.filter_cons] at hb
      simp at hb
  | cons a t1 ih =>
    intro l2 h1 h2 hf
    cases l2 with
    | nil =>
      exfalso
      have ha := hf (sortKey a)
      rw [List.filter_nil, List.filter_cons] at ha
      simp at ha
    | cons b t2 =>
      have hab : a = b := by
        by_cases hk : sortKey b = sortKey a
        · have heads := hf (sortKey a)
          rw [List.filter_cons, List.filter_cons] at heads
          simp only [decide_eq_true_eq, hk, if_pos rfl, if_pos trivial] at heads
          injection heads
        · exfalso
          rcases obsLe_total a b with hle | hle
          · have hmem : a ∈ (b :: t2).filter (fun o => decide (sortKey o = sortKey a)) := by
              rw [← hf (sortKey a)]
              rw [List.filter_cons]
              simp [List.mem_cons]
            have hmem2 := (List.mem_filter.mp hmem).1
            rcases List.mem_cons.mp hmem2 with he | hmem3
            · exact hk (by rw [he])
            · have hba := List.rel_of_pairwise_cons h2 hmem3
              exact hk (keyLe_antisymm hba hle)
          · have hmem : b ∈ (a :: t1).filter (fun o => decide (sortKey o = sortKey b)) := by
              rw [hf (sortKey b)]
              rw [List.filter_cons]
              simp [List.mem_cons]
            have hmem2 := (List.mem_filter.mp hmem).1
            rcases List.mem_cons.mp hmem2 with he | hmem3
            · exact hk (by rw [he])
            · have hab' := List.rel_of_pairwise_cons h1 hmem3
              exact hk (keyLe_antisymm hle hab')
      subst hab
      have htails : t1 = t2 := by
        apply ih t2 h1.of_cons h2.of_cons
        intro k
        have := hf k
        rw [List.filter_cons, List.filter_cons] at this
        by_cases hk : sortKey a = k
        · rw [if_pos (by simp [hk]), if_pos (by simp [hk])] at this
          injection this
        · rw [if_neg (by simp [hk]), if_neg (by simp [hk])] at this
          exact this
      rw [htails]

lemma obsLe_total_or (a b : Obs) : (obsLe a b || obsLe b a) = true := by
  rcases obsLe_total a b with h | h <;> simp [h]

lemma obsLe_trans3 : ∀ (a b c : Obs),
    obsLe a b = true → obsLe b c = true → obsLe a c = true :=
  fun _ _ _ h1 h2 => obsLe_trans h1 h2

/-- The stable sort restricted to one sort-key class is untouched by
`List.mergeSort` as well. -/
lemma mergeSort_filter_key (l : List Obs) (k : Int × Int) :
    (l.mergeSort obsLe).filter (fun o => decide (sortKey o = k)) =
      l.filter (fun o => decide (sortKey o = k)) := by
  have hsub : List.Sublist (l.filter (fun o => decide (sortKey o = k))) (l.mergeSort obsLe) := by
    apply List.sublist_mergeSort obsLe_trans3 obsLe_total_or
    · apply List.pairwise_of_forall_mem_list
      intro x hx y hy
      have hxk := (List.mem_filter.mp hx).2
      have hyk := (List.mem_filter.mp hy).2
      simp only [decide_eq_true_eq] at hxk hyk
      exact obsLe_of_sortKey_eq (by rw [hxk, hyk])
    · exact List.filter_sublist l
  have hperm : List.Perm
      ((l.mergeSort obsLe).filter (fun o => decide (sortKey o = k)))
      (l.filter (fun o => decide (sortKey o = k))) :=
    (List.mergeSort_perm l obsLe).filter _
  have hsub2 : List.Sublist (l.filter (fun o => decide (sortKey o = k)))
      ((l.mergeSort obsLe).filter (fun o => decide (sortKey o = k))) := by
    have h := hsub.filter (fun o => decide (sortKey o = k))
    rw [List.filter_filter] at h
    simpa [Bool.and_self] using h
  exact (hsub2.eq_of_length hperm.length_eq.symm).symm

/-- The insertion-sort model coincides with the standard library's stable
merge sort under the code's comparison — the two are interchangeable models
of Python's `list.sort`. -/
theorem sortStage_eq_mergeSort (l : List Obs) : sortStage l = l.mergeSort obsLe := by
  apply sorted_key_filter_unique
  · exact sortStage_sorted l
  · exact List.sorted_mergeSort obsLe_trans3 obsLe_total_or l
  · intro k
    rw [sortStage_stable, mergeSort_filter_key]

/-! ### Sampler lemmas -/

lemma runPasses_ok_snd {snap : Int → Except Unit (List RawNode)} {step th : Int} :
    ∀ (fuel : Nat) (pos : Int) (acc r : List Obs) (q : Int),
      runPasses snap step th fuel pos acc = (.ok r, q) → q = 0 := by
  intro fuel
  induction fuel with
  | zero =>
    intro pos acc r q h
    unfold runPasses at h
    split at h
    · cases h
    · injection h with h1 h2
      exact h2.symm
  | succ fuel ih =>
    intro pos acc r q h
    unfold runPasses at h
    split at h
    · split at h
      · injection h with h1 h2
        cases h1
      · exact ih _ _ _ _ h
    · injection h with h1 h2
      exact h2.symm

lemma scanSnapshot_text {pos : Int} {nodes : List RawNode} {o : Obs}
    (h : o ∈ scanSnapshot pos nodes) : primaryMatchL o.text.data = true := by
  rcases List.mem_filterMap.mp h with ⟨n, -, hn⟩
  simp only [scanNode] at hn
  split at hn
  · cases hn
  · split at hn
    · rename_i hcond
      cases hn
      exact hcond.1
    · cases hn

/-- Every observation a successful sampling loop returns was produced by the
scanner, hence its text matches the primary grammar. -/
lemma runPasses_text {snap : Int → Except Unit (List RawNode)} {step th : Int} :
    ∀ (fuel : Nat) (pos : Int) (acc r : List Obs) (q : Int),
      (∀ o ∈ acc, primaryMatchL o.text.data = true) →
      runPasses snap step th fuel pos acc = (.ok r, q) →
      ∀ o ∈ r, primaryMatchL o.text.data = true := by
  intro fuel
  induction fuel with
  | zero =>
    intro pos acc r q hacc h
    unfold runPasses at h
    split at h
    · cases h
    · injection h with h1 h2
      cases h1
      exact hacc
  | succ fuel ih =>
    intro pos acc r q hacc h
    unfold runPasses at h
    split at h
    · split at h
      · injection h with h1 h2
        cases h1
      · refine ih _ _ _ _ ?_ h
        intro o ho
        rcases List.mem_append.mp ho with hm | hm
        · exact hacc o hm
        · exact scanSnapshot_text hm
    · injection h with h1 h2
      cases h1
      exact hacc

/-- Every observation the fallback extractor emits matches the fallback
grammar. -/
lemma extract_with_xpath_text : ∀ {spans : List Span} {seen} {o : Obs},
    o ∈ extract_with_xpath spans seen → fallbackMatchL o.text.data = true := by
  intro spans
  induction spans with
  | nil => intro seen o h; cases h
  | cons s rest ih =>
    intro seen o h
    unfold extract_with_xpath at h
    split at h
    · exact ih h
    · split at h
      · exact ih h
      · split at h
        · exact ih h
        · split at h
          · exact ih h
          · split at h
            · exact ih h
            · rcases List.mem_cons.mp h with rfl | hm
              · rename_i hmatch _ _ _
                simp only [Bool.not_eq_false] at hmatch
                exact hmatch
              · exact ih hm

/-! ### Record construction lemmas -/

lemma mkRecords_length (ts : String) (l : List Obs) :
    (mkRecords ts l).length = l.length := by
  simp [mkRecords]

lemma mkRecords_getElem? (ts : String) (l : List Obs) (i : Nat) :
    (mkRecords ts l)[i]? = (l[i]?).map (fun o => mkRecord ts i o) := by
  unfold mkRecords
  rw [List.getElem?_map, List.getElem?_enum]
  cases l[i]? <;> rfl

lemma mem_mkRecords {ts : String} {l : List Obs} {r : PostRecord}
    (h : r ∈ mkRecords ts l) : ∃ i o, l[i]? = some o ∧ r = mkRecord ts i o := by
  unfold mkRecords at h
  rcases List.mem_map.mp h with ⟨p, hp, he⟩
  exact ⟨p.1, p.2, List.mem_enum_iff_getElem?.mp hp, he.symm⟩

lemma map_stripTime (ts : String) (l : List Obs) :
    (mkRecords ts l).map stripTime = mkRecords "" l := by
  unfold mkRecords
  rw [List.map_map]
  rfl

/-- Texts of the final candidate list always satisfy the primary grammar,
provided the primary observations do (fallback texts satisfy the stricter
fallback grammar). -/
lemma finalCandidates_text {all_numbers : List Obs} {spans : List Span}
    (hall : ∀ o ∈ all_numbers, primaryMatchL o.text.data = true) :
    ∀ o ∈ finalCandidates all_numbers spans, primaryMatchL o.text.data = true := by
  intro o ho
  unfold finalCandidates at ho
  rw [mem_sortStage] at ho
  split at ho
  · exact fallback_imp_primary (extract_with_xpath_text ho)
  · unfold classifyStage at ho
    have hm := (mem_of_mem_classifyAux ho).1
    rw [mem_sortStage] at hm
    exact hall o (mem_of_mem_dedupAux hm)

/-! ### Claims -/

/-- C6: the Spatial Deduplicator is idempotent: re-running the 150px-grid,
text-keyed, first-wins deduplication on its own output returns that output
unchanged. -/
theorem C6_dedup_idempotent (l : List Obs) : dedup (dedup l) = dedup l := by
  unfold dedup
  apply dedupAux_of_distinct (dedupAux_pairwise l [])
  intro x _ hx
  cases hx

/-- C3 counterexample: two observations with the same text, tops equal and
lefts 2px apart (both differences below 150), straddle a 150px grid-cell
boundary (cells 0 and 1), so the deduplicator keeps both — refuting "keeps
only one" for every pair closer than 150px. -/
theorem C3_counterexample :
    (Obs.mk ("7") 10 149 20 20).text = (Obs.mk ("7") 10 151 20 20).text ∧
    |(Obs.mk ("7") 10 149 20 20).top - (Obs.mk ("7") 10 151 20 20).top| < 150 ∧
    |(Obs.mk ("7") 10 149 20 20).left - (Obs.mk ("7") 10 151 20 20).left| < 150 ∧
    dedup [Obs.mk ("7") 10 149 20 20, Obs.mk ("7") 10 151 20 20] =
      [Obs.mk ("7") 10 149 20 20, Obs.mk ("7") 10 151 20 20] := by
  refine ⟨rfl, by decide, by decide, by decide⟩

/-- C3 amended: the deduplicator keeps exactly one observation per occupied
`(left/150, top/150, text)` cell — same text and same cell collapse to one
survivor, and sharing a cell forces both coordinates to differ by less than
150 (mere closeness below 150 does not force a shared cell); and candidates
whose top or left differ by more than 250 land in different classifier cells,
so the re-bucket filter never merges them. -/
theorem C3_amended_grid (l : List Obs) :
    ((dedup l).Pairwise (fun a b => dedupKey a ≠ dedupKey b)
      ∧ ∀ o ∈ l, ∃ x ∈ dedup l, dedupKey x = dedupKey o)
    ∧ (∀ x y : Obs, dedupKey x = dedupKey y →
        |x.left - y.left| < 150 ∧ |x.top - y.top| < 150 ∧ x.text = y.text)
    ∧ (∀ x y : Obs, 250 < |x.top - y.top| ∨ 250 < |x.left - y.left| →
        classifyKey x ≠ classifyKey y) := by
  refine ⟨⟨dedupAux_pairwise l [], ?_⟩,
    fun x y h => dedupKey_eq_imp_close h,
    fun x y h => classifyKey_ne_of_far h⟩
  intro o ho
  rcases dedupAux_covers [] ho with hs | h
  · cases hs
  · exact h

/-- C3 witness: the amended theorem applied to a concrete far-apart pair. -/
theorem C3_witness :
    classifyKey (Obs.mk ("5") 0 0 20 20) ≠ classifyKey (Obs.mk ("5") 300 0 20 20) :=
  (C3_amended_grid []).2.2 (Obs.mk ("5") 0 0 20 20) (Obs.mk ("5") 300 0 20 20)
    (by decide)

/-- C2 counterexample: `unique_numbers` is sorted by `(top//200, left)` before
the cell filter runs, so the dedup insertion order is not the processing
order.  Here the first-inserted token (text "5", top 210) and the
second-inserted token (text "6", top 10) claim the same 250px cell; the claim
predicts the first-inserted one survives, but the code keeps the other. -/
theorem C2_counterexample :
    dedup [Obs.mk ("5") 210 10 20 20, Obs.mk ("6") 10 10 20 20] =
      [Obs.mk ("5") 210 10 20 20, Obs.mk ("6") 10 10 20 20]
    ∧ sizeOk (Obs.mk ("5") 210 10 20 20) = true
    ∧ classifyKey (Obs.mk ("5") 210 10 20 20) = classifyKey (Obs.mk ("6") 10 10 20 20)
    ∧ classifyStage (dedup [Obs.mk ("5") 210 10 20 20, Obs.mk ("6") 10 10 20 20]) =
        [Obs.mk ("6") 10 10 20 20] := by
  refine ⟨by decide, by decide, by decide, by decide⟩

/-- C2 amended: among geometry-passing tokens claiming the same 250px cell,
the survivor is the first in the reading order (the stable sort by
`(top//200, left)` applied at line 261 before the filter); dedup insertion
order decides only ties within equal sort keys.  A token survives the
classifier iff it is the first size-passing claimant of its cell in that
sorted order. -/
theorem C2_amended_first_wins (u : List Obs) (x : Obs) :
    x ∈ classifyStage u ↔ (sortStage u).find? (classifyClaim x) = some x := by
  unfold classifyStage
  rw [classifyAux_mem_iff]
  simp

/-- C2 witness: the amended characterization applied to the counterexample
input — the survivor is the first claimant of the sorted order. -/
theorem C2_witness :
    (Obs.mk ("6") 10 10 20 20) ∈
      classifyStage [Obs.mk ("5") 210 10 20 20, Obs.mk ("6") 10 10 20 20] :=
  (C2_amended_first_wins [Obs.mk ("5") 210 10 20 20, Obs.mk ("6") 10 10 20 20]
    (Obs.mk ("6") 10 10 20 20)).mpr (by decide)

/-- C7 counterexample: the primary grammar allows whitespace between number
and suffix (`\s*`), the fallback grammar does not: "1 K" is accepted by the
primary scanner and rejected by the fallback extractor. -/
theorem C7_counterexample :
    primaryMatchL (("1 K").data) = true ∧ fallbackMatchL (("1 K").data) = false := by
  refine ⟨by decide, by decide⟩

/-- C7 amended: the fallback grammar accepts exactly the whitespace-free part
of the primary grammar: a string matches the fallback pattern iff it matches
the primary pattern and contains no whitespace character. -/
theorem C7_amended_grammar (cs : List Char) :
    fallbackMatchL cs = true ↔
      (primaryMatchL cs = true ∧ cs.all (fun c => !c.isWhitespace) = true) := by
  constructor
  · intro h
    refine ⟨fallback_imp_primary h, ?_⟩
    rw [List.all_eq_true]
    intro c hc
    simpa using fallbackMatchL_no_ws h c hc
  · rintro ⟨hp, hw⟩
    refine primary_imp_fallback_of_no_ws hp ?_
    intro c hc
    simpa using List.all_eq_true.mp hw c hc

/-- C7 witness: the amended equivalence applied to a concrete suffixed
token. -/
theorem C7_witness : fallbackMatchL (("4.4K").data) = true :=
  (C7_amended_grammar (("4.4K").data)).mpr ⟨by decide, by decide⟩

/-- C4: when fewer than 10 tokens survive the classifier's two filters, the
output is built from the fallback extractor's candidates alone (the primary
survivors are discarded, never merged); with 10 or more survivors the output
ignores the fallback population entirely. -/
theorem C4_fallback_replacement (all_numbers : List Obs)
    (spans spans' : List Span) (ts : String) :
    ((classifyStage (dedup all_numbers)).length < 10 →
      extractRecords all_numbers spans ts =
        mkRecords ts (sortStage (extract_with_xpath spans [])))
    ∧ (10 ≤ (classifyStage (dedup all_numbers)).length →
      extractRecords all_numbers spans ts =
        mkRecords ts (sortStage (classifyStage (dedup all_numbers)))
      ∧ extractRecords all_numbers spans ts = extractRecords all_numbers spans' ts) := by
  unfold extractRecords finalCandidates
  constructor
  · intro h
    rw [if_pos h]
  · intro h
    rw [if_neg (by omega)]
    exact ⟨rfl, by rw [if_neg (by omega)]⟩

/-- C4 witness: on an empty primary stream (0 survivors) the records equal
the fallback-only pipeline's records. -/
theorem C4_witness :
    extractRecords [] [(⟨"42", 10, 60, 20, 20⟩ : Span)] "t" =
      mkRecords "t" (sortStage (extract_with_xpath [(⟨"42", 10, 60, 20, 20⟩ : Span)] [])) :=
  (C4_fallback_replacement [] [(⟨"42", 10, 60, 20, 20⟩ : Span)] [] "t").1 (by decide)

/-- C5: the sequencer's `i`-th record (0-based `i`) is built from the `i`-th
candidate of the stable ascending sort by `(top//200, left)` and is labelled
`image(i+1)`; strictly smaller row band, or equal band and smaller left,
means earlier position; equal keys keep their pre-sort relative order; the
sorted list is a permutation of the candidate set. -/
theorem C5_sequencer (vc : List Obs) (ts : String) :
    (∀ i : Nat, (mkRecords ts (sortStage vc))[i]? =
      ((sortStage vc)[i]?).map (fun o => mkRecord ts i o))
    ∧ (∀ (i : Nat) (r : PostRecord), (mkRecords ts (sortStage vc))[i]? = some r →
        r.label = "image" ++ toString (i + 1) ∧
        ∃ o, (sortStage vc)[i]? = some o ∧ r.views = some o.text)
    ∧ (∀ (i j : Nat) (a b : Obs), (sortStage vc)[i]? = some a →
        (sortStage vc)[j]? = some b →
        (a.top.fdiv 200 < b.top.fdiv 200 ∨
          (a.top.fdiv 200 = b.top.fdiv 200 ∧ a.left < b.left)) → i < j)
    ∧ (∀ k, (sortStage vc).filter (fun o => decide (sortKey o = k)) =
        vc.filter (fun o => decide (sortKey o = k)))
    ∧ List.Perm (sortStage vc) vc := by
  refine ⟨fun i => mkRecords_getElem? ts (sortStage vc) i, ?_, ?_,
    fun k => sortStage_stable k vc, sortStage_perm vc⟩
  · intro i r hr
    rw [mkRecords_getElem? ts (sortStage vc) i] at hr
    rcases hg : (sortStage vc)[i]? with _ | o
    · rw [hg] at hr
      cases hr
    · rw [hg] at hr
      simp only [Option.map_some'] at hr
      cases hr
      exact ⟨rfl, o, rfl, rfl⟩
  · intro i j a b ha hb hlt
    have hs := sortStage_sorted vc
    rw [List.pairwise_iff_getElem] at hs
    rcases List.getElem?_eq_some_iff.mp ha with ⟨hi, hgi⟩
    rcases List.getElem?_eq_some_iff.mp hb with ⟨hj, hgj⟩
    by_contra hij
    rcases Nat.lt_or_ge j i with hji | hji
    · have hba := hs j i hj hi hji
      rw [hgj, hgi] at hba
      unfold obsLe at hba
      rw [keyLe_iff] at hba
      unfold sortKey at hba
      rcases hlt with h | h <;> rcases hba with h' | h' <;>
        simp only at h' <;> omega
    · have hije : i = j := by omega
      subst hije
      rw [ha] at hb
      injection hb with hab
      subst hab
      rcases hlt with h | h <;> omega

/-- C5 witness: the sequencer clauses at a concrete two-element candidate
set. -/
theorem C5_witness :
    (⟨"image1", some ("89"), none, none, none, none, none, none, "t"⟩ :
        PostRecord).label = "image" ++ toString 1 ∧
      ∃ o, (sortStage [Obs.mk ("89") 10 10 20 20])[0]? = some o ∧
        (⟨"image1", some ("89"), none, none, none, none, none, none, "t"⟩ :
          PostRecord).views = some o.text :=
  (C5_sequencer [Obs.mk ("89") 10 10 20 20] "t").2.1 0
    (⟨"image1", some ("89"), none, none, none, none, none, none, "t"⟩ : PostRecord)
    (by decide)

/-- C9: every produced record's `views` is `some` of the text of its
surviving candidate token (so null never occurs in output), the text matches
the primary numeric grammar, and the four other metric fields are always
null. -/
theorem C9_views_invariant :
    (∀ (all_numbers : List Obs) (spans : List Span) (ts : String) (r : PostRecord),
      r ∈ extractRecords all_numbers spans ts →
      (∃ o ∈ finalCandidates all_numbers spans, r.views = some o.text)
      ∧ r.views ≠ none ∧ r.likes = none ∧ r.comments = none
      ∧ r.shares = none ∧ r.saves = none)
    ∧ (∀ (snap : Int → Except Unit (List RawNode))
        (total_height viewport_height : Int) (spans : List Span) (ts : String)
        (recs : List PostRecord) (r : PostRecord),
      (extract_post_views snap total_height viewport_height spans ts).1 = .ok recs →
      r ∈ recs → ∃ t, r.views = some t ∧ primaryMatchL t.data = true) := by
  constructor
  · intro all_numbers spans ts r hr
    rcases mem_mkRecords hr with ⟨i, o, hio, rfl⟩
    exact ⟨⟨o, List.getElem?_mem hio, rfl⟩, Option.some_ne_none o.text, rfl, rfl, rfl, rfl⟩
  · intro snap total_height viewport_height spans ts recs r hok hr
    unfold extract_post_views at hok
    rcases hrun : runPasses snap (viewport_height - 100) total_height
        (total_height.toNat + 1) 0 [] with ⟨res, q⟩
    rw [hrun] at hok
    cases res with
    | error e => cases hok
    | ok all_numbers =>
      simp only [Except.ok.injEq] at hok
      subst hok
      rcases mem_mkRecords hr with ⟨i, o, hio, rfl⟩
      refine ⟨o.text, rfl, ?_⟩
      refine finalCandidates_text ?_ o (List.getElem?_mem hio)
      exact runPasses_text _ _ _ _ _ (fun o ho => absurd ho (List.not_mem_nil o)) hrun

/-- C9 witness: the invariant at a concrete fallback-produced record. -/
theorem C9_witness :
    (∃ o ∈ finalCandidates [] [(⟨"42", 10, 60, 20, 20⟩ : Span)],
      (⟨"image1", some ("42"), none, none, none, none, none, none, "t"⟩ :
        PostRecord).views = some o.text)
    ∧ (⟨"image1", some ("42"), none, none, none, none, none, none, "t"⟩ :
        PostRecord).views ≠ none
    ∧ (⟨"image1", some ("42"), none, none, none, none, none, none, "t"⟩ :
        PostRecord).likes = none
    ∧ (⟨"image1", some ("42"), none, none, none, none, none, none, "t"⟩ :
        PostRecord).comments = none
    ∧ (⟨"image1", some ("42"), none, none, none, none, none, none, "t"⟩ :
        PostRecord).shares = none
    ∧ (⟨"image1", some ("42"), none, none, none, none, none, none, "t"⟩ :
        PostRecord).saves = none :=
  C9_views_invariant.1 [] [(⟨"42", 10, 60, 20, 20⟩ : Span)] "t"
    (⟨"image1", some ("42"), none, none, none, none, none, none, "t"⟩ : PostRecord)
    (by decide)

/-- C10: every output record carries exactly the two extra always-null fields
`image_src` and `alt_text` beyond the spec's record model, and the serialized
column order is the dict-literal key order
`label, views, likes, comments, shares, saves, image_src, alt_text,
scraped_at`. -/
theorem C10_record_shape (all_numbers : List Obs) (spans : List Span) (ts : String) :
    (∀ r ∈ extractRecords all_numbers spans ts,
      r.image_src = none ∧ r.alt_text = none ∧
      (recordFields r).map Prod.fst =
        ["label", "views", "likes", "comments", "shares", "saves",
         "image_src", "alt_text", "scraped_at"])
    ∧ (extractRecords all_numbers spans ts ≠ [] →
        csvHeader (extractRecords all_numbers spans ts) =
          some ["label", "views", "likes", "comments", "shares", "saves",
            "image_src", "alt_text", "scraped_at"]) := by
  constructor
  · intro r hr
    rcases mem_mkRecords hr with ⟨i, o, -, rfl⟩
    exact ⟨rfl, rfl, rfl⟩
  · intro h
    rcases he : extractRecords all_numbers spans ts with _ | ⟨r, rest⟩
    · exact absurd he h
    · rfl

/-- C10 witness: the shape clauses at a concrete output record. -/
theorem C10_witness :
    (⟨"image1", some ("42"), none, none, none, none, none, none, "t"⟩ :
      PostRecord).image_src = none ∧
    (⟨"image1", some ("42"), none, none, none, none, none, none, "t"⟩ :
      PostRecord).alt_text = none ∧
    (recordFields (⟨"image1", some ("42"), none, none, none, none, none, none, "t"⟩ :
      PostRecord)).map Prod.fst =
      ["label", "views", "likes", "comments", "shares", "saves",
       "image_src", "alt_text", "scraped_at"] :=
  (C10_record_shape [] [(⟨"42", 10, 60, 20, 20⟩ : Span)] "t").1
    (⟨"image1", some ("42"), none, none, none, none, none, none, "t"⟩ : PostRecord)
    (by decide)

/-- C1 counterexample: two runs over the identical render-surface sequence
but at different wall-clock instants differ — `scraped_at` copies the clock,
so the records are not byte-identical in every field. -/
theorem C1_counterexample :
    extract_post_views (fun _ => .ok []) 0 600 [(⟨"42", 10, 60, 20, 20⟩ : Span)]
        "2024-05-01T10:00:00" ≠
      extract_post_views (fun _ => .ok []) 0 600 [(⟨"42", 10, 60, 20, 20⟩ : Span)]
        "2024-05-02T10:00:00" := by
  intro h
  have h2 : ((extract_post_views (fun _ => .ok []) 0 600
        [(⟨"42", 10, 60, 20, 20⟩ : Span)] "2024-05-01T10:00:00").1).toOption =
      ((extract_post_views (fun _ => .ok []) 0 600
        [(⟨"42", 10, 60, 20, 20⟩ : Span)] "2024-05-02T10:00:00").1).toOption := by
    rw [h]
  exact absurd h2 (by decide)

/-- C1 amended: the pipeline is deterministic given the render-surface
sequence and the clock reading: every field except `scraped_at` is a function
of the observation stream alone (two runs at different instants agree after
blanking `scraped_at`, and on the final scroll offset); `scraped_at` copies
the per-run clock. -/
theorem C1_determinism (snap : Int → Except Unit (List RawNode))
    (total_height viewport_height : Int) (spans : List Span) (ts1 ts2 : String) :
    ((extract_post_views snap total_height viewport_height spans ts1).1).map
        (List.map stripTime) =
      ((extract_post_views snap total_height viewport_height spans ts2).1).map
        (List.map stripTime)
    ∧ (extract_post_views snap total_height viewport_height spans ts1).2 =
      (extract_post_views snap total_height viewport_height spans ts2).2 := by
  unfold extract_post_views
  rcases hrun : runPasses snap (viewport_height - 100) total_height
      (total_height.toNat + 1) 0 [] with ⟨res, q⟩
  cases res with
  | error e => exact ⟨rfl, rfl⟩
  | ok all_numbers =>
    refine ⟨?_, rfl⟩
    simp only [Except.map]
    unfold extractRecords
    rw [map_stripTime, map_stripTime]

/-- C8 counterexample: a pass that raises at scroll offset 500 aborts the
sampler with the surface still scrolled to 500 — there is no `finally`
restoring the origin on the failure path. -/
theorem C8_counterexample :
    (extract_post_views (fun p => if p = 0 then .ok [] else .error ())
        1000 600 [] "t").2 ≠ 0
    ∧ (extract_post_views (fun p => if p = 0 then .ok [] else .error ())
        1000 600 [] "t").1 = .error () := by
  refine ⟨by decide, by rfl⟩

/-- C8 amended: the scroll offset is restored to 0 whenever the sampling loop
completes normally (the pipeline returns a record list); when a pass raises,
the exception propagates and the surface is left at the failing pass's
offset. -/
theorem C8_restore_on_success (snap : Int → Except Unit (List RawNode))
    (total_height viewport_height : Int) (spans : List Span) (ts : String)
    (r : List PostRecord)
    (h : (extract_post_views snap total_height viewport_height spans ts).1 = .ok r) :
    (extract_post_views snap total_height viewport_height spans ts).2 = 0 := by
  unfold extract_post_views at h ⊢
  revert h
  rcases hrun : runPasses snap (viewport_height - 100) total_height
      (total_height.toNat + 1) 0 [] with ⟨res, q⟩
  cases res with
  | error e => intro h; cases h
  | ok all_numbers => intro h; rfl

/-- C8 witness: a run with no failing pass ends with the scroll restored. -/
theorem C8_witness :
    (extract_post_views (fun _ => .ok []) 0 600 [] "t").2 = 0 :=
  C8_restore_on_success (fun _ => .ok []) 0 600 [] "t" [] (by rfl)

end InstaScrape
